import Mathlib

/-!
Verification of the construct-tree metadata subsystem (tree builder, canonical
attribute serialization, content hashing, tree differ, branch extraction) from
`core/lib/private/tree-metadata.ts`, and of the DynamoDB `GlobalTable` import
guards from `aws-dynamodb/lib/global-table.ts`.

The SHA-256/base64 digest `computeStringHash` is modelled as an abstract
function parameter `H : String → String` (the spec itself states the exact
digest algorithm is not a compatibility requirement, only determinism); every
theorem about hashing is stated for all `H`, and concrete evaluations
instantiate `H` with the identity so the digested string itself is visible.
-/

/-- JSON-like values as handled by the attribute canonicalization code.
Numbers are modelled as integers and `Date` objects by their ISO string;
string escaping is elided (no key or value in any claim needs escapes). -/
inductive JVal where
  | str : String → JVal
  | num : Int → JVal
  | bool : Bool → JVal
  | null : JVal
  | date : String → JVal
  | arr : List JVal → JVal
  | obj : List (String × JVal) → JVal

/-- Association list modelling a JS object used as a string-keyed record:
keys are unique (enforced by `recordSet`), insertion order is preserved. -/
abbrev Record (α : Type) := List (String × α)

/-- Property read `m[k]`. -/
def recordGet {α : Type} (m : Record α) (k : String) : Option α :=
  match m with
  | [] => none
  | (k', v) :: rest => if k' == k then some v else recordGet rest k

/-- JS assignment `m[k] = v`: updates the value in place if the key is present
(keeping its position), otherwise appends a new entry at the end. -/
def recordSet {α : Type} (m : Record α) (k : String) (v : α) : Record α :=
  if m.any (fun p => p.1 == k) then
    m.map (fun p => if p.1 == k then (k, v) else p)
  else m ++ [(k, v)]

/-- JS `delete m[k]`. -/
def recordDelete {α : Type} (m : Record α) (k : String) : Record α :=
  m.filter (fun p => !(p.1 == k))

/-- Object.values. -/
def recordValues {α : Type} (m : Record α) : List α := m.map (fun p => p.2)

/-- Object.keys. -/
def recordKeys {α : Type} (m : Record α) : List String := m.map (fun p => p.1)

/-- Lexicographic comparison of char sequences, the order JS uses when
comparing strings with `<` and `>` (and in the default `Array.sort`). -/
def charListLe : List Char → List Char → Bool
  | [], _ => true
  | _ :: _, [] => false
  | a :: as, b :: bs => if a < b then true else if b < a then false else charListLe as bs

/-- JS string comparison `a <= b`. -/
def strLe (a b : String) : Bool := charListLe a.data b.data

theorem charListLe_cons_iff {x y : Char} {xs ys : List Char} :
    charListLe (x :: xs) (y :: ys) = true ↔
      x < y ∨ (x = y ∧ charListLe xs ys = true) := by
  simp only [charListLe]
  split_ifs with h1 h2
  · simp [h1]
  · simp only [Bool.false_eq_true, false_iff, not_or]
    exact ⟨h1, fun hand => absurd (hand.1 ▸ h2) (lt_irrefl _)⟩
  · have hxy : x = y := le_antisymm (not_lt.mp h2) (not_lt.mp h1)
    simp [h1, hxy]

theorem charListLe_total : ∀ (a b : List Char),
    charListLe a b = true ∨ charListLe b a = true
  | [], _ => Or.inl rfl
  | _ :: _, [] => Or.inr rfl
  | x :: xs, y :: ys => by
    rcases lt_trichotomy x y with h | h | h
    · exact Or.inl (charListLe_cons_iff.mpr (Or.inl h))
    · rcases charListLe_total xs ys with ih | ih
      · exact Or.inl (charListLe_cons_iff.mpr (Or.inr ⟨h, ih⟩))
      · exact Or.inr (charListLe_cons_iff.mpr (Or.inr ⟨h.symm, ih⟩))
    · exact Or.inr (charListLe_cons_iff.mpr (Or.inl h))

theorem charListLe_trans : ∀ (a b c : List Char),
    charListLe a b = true → charListLe b c = true → charListLe a c = true
  | [], _, _, _, _ => rfl
  | _ :: _, [], _, h, _ => by simp [charListLe] at h
  | _ :: _, _ :: _, [], _, h => by simp [charListLe] at h
  | x :: xs, y :: ys, z :: zs, h1, h2 => by
    rcases charListLe_cons_iff.mp h1 with hxy | ⟨hxy, hrec1⟩ <;>
      rcases charListLe_cons_iff.mp h2 with hyz | ⟨hyz, hrec2⟩
    · exact charListLe_cons_iff.mpr (Or.inl (lt_trans hxy hyz))
    · exact charListLe_cons_iff.mpr (Or.inl (hyz ▸ hxy))
    · exact charListLe_cons_iff.mpr (Or.inl (hxy ▸ hyz))
    · exact charListLe_cons_iff.mpr
        (Or.inr ⟨hxy.trans hyz, charListLe_trans xs ys zs hrec1 hrec2⟩)

theorem charListLe_antisymm : ∀ (a b : List Char),
    charListLe a b = true → charListLe b a = true → a = b
  | [], [], _, _ => rfl
  | [], _ :: _, _, h => by simp [charListLe] at h
  | _ :: _, [], h, _ => by simp [charListLe] at h
  | x :: xs, y :: ys, h1, h2 => by
    rcases charListLe_cons_iff.mp h1 with hxy | ⟨hxy, hrec1⟩ <;>
      rcases charListLe_cons_iff.mp h2 with hyx | ⟨hyx, hrec2⟩
    · exact absurd hyx (asymm hxy)
    · exact absurd (hyx ▸ hxy) (lt_irrefl y)
    · exact absurd (hxy ▸ hyx) (lt_irrefl y)
    · exact hxy ▸ charListLe_antisymm xs ys hrec1 hrec2 ▸ rfl

theorem strLe_total (a b : String) : strLe a b = true ∨ strLe b a = true :=
  charListLe_total a.data b.data

theorem strLe_trans {a b c : String} (h1 : strLe a b = true) (h2 : strLe b c = true) :
    strLe a c = true :=
  charListLe_trans a.data b.data c.data h1 h2

theorem strLe_antisymm {a b : String} (h1 : strLe a b = true) (h2 : strLe b a = true) :
    a = b := by
  cases a; cases b
  exact congrArg String.mk (charListLe_antisymm _ _ h1 h2)

/-- Comparator used by the sort in source `canonicalize`: the JS comparator
returns -1/1/0 on key comparison, so the (stable) sort orders pairs by key. -/
def pairLe (a b : String × JVal) : Prop := strLe a.1 b.1 = true

instance : DecidableRel pairLe := fun a b => inferInstanceAs (Decidable (strLe a.1 b.1 = true))

instance : IsTotal (String × JVal) pairLe := ⟨fun a b => strLe_total a.1 b.1⟩

instance : IsTrans (String × JVal) pairLe := ⟨fun _ _ _ h1 h2 => strLe_trans h1 h2⟩

/-- The `pairs.sort(...)` step of source `canonicalize` (stable sort by key). -/
def sortPairs (l : List (String × JVal)) : List (String × JVal) :=
  List.insertionSort pairLe l

theorem sizeOf_of_perm {α : Type} [SizeOf α] {l1 l2 : List α} (h : l1.Perm l2) :
    sizeOf l1 = sizeOf l2 := by
  induction h with
  | nil => rfl
  | cons x _ ih => simp [ih]
  | swap x y l => simp; omega
  | trans _ _ ih1 ih2 => omega

theorem sizeOf_sortPairs (l : List (String × JVal)) :
    sizeOf (sortPairs l) = sizeOf l :=
  sizeOf_of_perm (List.perm_insertionSort pairLe l)

mutual

/-- Source `serialize`. JS `typeof null` is `"object"` and `for..in` over
`null` iterates zero keys, so `null` serializes as empty braces. -/
def serialize : JVal → String
  | .str s => "\"" ++ s ++ "\""
  | .num n => toString n
  | .bool b => cond b "true" "false"
  | .null => "\x7b\x7d"
  | .date d => "Date.parse(\"" ++ d ++ "\")"
  | .arr l => "[" ++ serializeElems l ++ "]"
  | .obj l => canonicalize l
termination_by v => (sizeOf v, 0)
decreasing_by all_goals (simp_wf; omega)

/-- The `reduce` in source `serialize` joining array elements with commas. -/
def serializeElems : List JVal → String
  | [] => ""
  | [v] => serialize v
  | v :: w :: vs => serialize v ++ "," ++ serializeElems (w :: vs)
termination_by l => (sizeOf l, 0)
decreasing_by all_goals (simp_wf; omega)

/-- Source `canonicalize`: sort the pairs by key, then emit the members. -/
def canonicalize (l : List (String × JVal)) : String :=
  "\x7b" ++ members (sortPairs l) ++ "\x7d"
termination_by (sizeOf l, 1)
decreasing_by rw [sizeOf_sortPairs]; omega

/-- The `reduce` in source `canonicalize` joining `"key":value` members. -/
def members : List (String × JVal) → String
  | [] => ""
  | [(k, v)] => "\"" ++ k ++ "\":" ++ serialize v
  | (k, v) :: q :: ps => "\"" ++ k ++ "\":" ++ serialize v ++ "," ++ members (q :: ps)
termination_by l => (sizeOf l, 0)
decreasing_by all_goals (simp_wf; omega)

end

/-- The default JS `Array.sort` string comparator, as a proposition. -/
def strLeP (a b : String) : Prop := strLe a b = true

instance : DecidableRel strLeP := fun a b => inferInstanceAs (Decidable (strLe a b = true))

instance : IsTotal String strLeP := ⟨strLe_total⟩

instance : IsTrans String strLeP := ⟨fun _ _ _ => strLe_trans⟩

/-- The `sortedChildrenHashes.sort()` step (default lexicographic sort). -/
def sortStrings (l : List String) : List String := List.insertionSort strLeP l

/-- Tree node produced by the Builder (source interface `Node`). The
`constructInfo` field is external runtime metadata with no bearing on any
claim and is not modelled. `children` is the id-keyed children record; the
empty record models the `undefined` the builder stores when a node has no
children (the code treats the two alike everywhere). -/
inductive Node where
  | mk (id path : String) (parent : Option Node) (children : List (String × Node))
      (attributes : Option (List (String × JVal))) (hash : String)

def Node.id : Node → String
  | .mk i _ _ _ _ _ => i

def Node.path : Node → String
  | .mk _ p _ _ _ _ => p

def Node.parent : Node → Option Node
  | .mk _ _ pr _ _ _ => pr

def Node.children : Node → Record Node
  | .mk _ _ _ c _ _ => c

def Node.attributes : Node → Option (Record JVal)
  | .mk _ _ _ _ a _ => a

def Node.hash : Node → String
  | .mk _ _ _ _ _ h => h

/-- Input to the Builder: the external construct tree. `attrs` models the
outcome of `synthAttributes` (the `IInspectable` capability probe followed by
`Stack.of(..).resolve`): `.ok none` means the construct is not inspectable,
`.error e` means attribute introspection throws `e`. -/
inductive Construct where
  | mk (id path : String) (attrs : Except String (Option (Record JVal)))
      (children : List Construct)

def Construct.id : Construct → String
  | .mk i _ _ _ => i

def Construct.path : Construct → String
  | .mk _ p _ _ => p

def Construct.attrs : Construct → Except String (Option (Record JVal))
  | .mk _ _ a _ => a

def Construct.children : Construct → List Construct
  | .mk _ _ _ c => c

/-- Mutable state of `_synthesizeTree` during the visit: the path-keyed
lookup table and the warnings recorded on the diagnostic channel. -/
structure VState where
  lookup : Record Node
  warnings : List String

/-- The hash expression of source `visit` line 74: digest of the
canonicalized attributes when present, else digest of
`sortedChildrenHashes.join()` - and JS `join()` with no argument inserts a
comma separator. -/
def nodeHash (H : String → String) (attrs : Option (Record JVal))
    (sortedHashes : List String) : String :=
  match attrs with
  | some a => H (canonicalize a)
  | none => H (String.intercalate "," sortedHashes)

/-- Reading `.hash` of a missing lookup entry throws a TypeError in JS. -/
def typeErrorMsg : String := "TypeError: cannot read hash of undefined"

/-- The `construct.node.children.map(child => lookup[child.node.path].hash)`
step of source lines 58-60, over all construct children (whether or not their
visit succeeded). -/
def childLookupHashes (lookup : Record Node) : List Construct → Except String (List String)
  | [] => .ok []
  | c :: cs =>
    match recordGet lookup c.path with
    | none => .error typeErrorMsg
    | some n => (childLookupHashes lookup cs).map (fun hs => n.hash :: hs)

/-- The `parent` field of a built node (source lines 66-71): a shallow
reference when the construct has an enclosing scope with a truthy
(non-empty) path. -/
def parentRef : Option Construct → Option Node
  | none => none
  | some p => if p.path == "" then none else some (.mk p.id p.path none [] none "")

/-- Warning recorded when a child visit throws (source line 47). -/
def warnMsg (c : Construct) (e : String) : String :=
  "Failed to render tree metadata for node [" ++ c.id ++ "]. Reason: " ++ e

mutual

/-- Source `visit` (lines 42-81): visit the children (each inside a
try/catch that records a warning and yields `undefined` on failure), build
the id-keyed children record from the successful ones, probe attributes (a
throw there propagates to this visit's caller), read every construct child's
hash from the lookup table (a child missing from the table - in particular
one whose visit just failed - makes this throw a TypeError), sort the
hashes, build the node, store it in the lookup table under its path. -/
def visit (H : String → String) (scope : Option Construct) (c : Construct)
    (st : VState) : Except String Node × VState :=
  match c with
  | .mk cid cpath cattrs cchildren =>
    let res := visitList H (.mk cid cpath cattrs cchildren) cchildren st
    let st1 := res.2
    let childrenMap := res.1.foldl
      (fun m k => match k with
        | some child => recordSet m child.id child
        | none => m) []
    match cattrs with
    | .error e => (.error e, st1)
    | .ok attrs =>
      match childLookupHashes st1.lookup cchildren with
      | .error e => (.error e, st1)
      | .ok hs =>
        let nd : Node := .mk (if cid == "" then "App" else cid) cpath
          (parentRef scope) childrenMap attrs (nodeHash H attrs (sortStrings hs))
        (.ok nd, ⟨recordSet st1.lookup cpath nd, st1.warnings⟩)

/-- The children `.map` with its try/catch (source lines 43-50). -/
def visitList (H : String → String) (parent : Construct) (cs : List Construct)
    (st : VState) : List (Option Node) × VState :=
  match cs with
  | [] => ([], st)
  | c :: rest =>
    match visit H (some parent) c st with
    | (.ok n, st') =>
      let res := visitList H parent rest st'
      (some n :: res.1, res.2)
    | (.error e, st') =>
      let res := visitList H parent rest ⟨st'.lookup, st'.warnings ++ [warnMsg c e]⟩
      (none :: res.1, res.2)

end

/-- Top-level call of `_synthesizeTree`: visit the root with no scope,
starting from an empty lookup table and no recorded warnings. -/
def buildTree (H : String → String) (root : Construct) : Except String Node × VState :=
  visit H none root ⟨[], []⟩

mutual

/-- Denotation of a successful visit: the node the Builder produces for a
construct whose subtree is free of introspection throws, has pairwise
distinct paths and distinct sibling ids (see `visit_pure`). -/
def buildPure (H : String → String) (scope : Option Construct) (c : Construct) : Node :=
  match c with
  | .mk cid cpath cattrs cchildren =>
    let kids := buildPureList H (.mk cid cpath cattrs cchildren) cchildren
    let attrs := match cattrs with | .ok a => a | .error _ => none
    .mk (if cid == "" then "App" else cid) cpath (parentRef scope)
      (kids.map (fun k => (k.id, k))) attrs
      (nodeHash H attrs (sortStrings (kids.map Node.hash)))

def buildPureList (H : String → String) (parent : Construct) :
    List Construct → List Node
  | [] => []
  | c :: rest => buildPure H (some parent) c :: buildPureList H parent rest

end

mutual

/-- Lookup-table entries appended by a clean visit, in insertion order
(postorder: descendants first, then the node itself). -/
def pureEntries (H : String → String) (scope : Option Construct) : Construct → Record Node
  | .mk cid cpath cattrs cchildren =>
    pureEntriesList H (.mk cid cpath cattrs cchildren) cchildren
      ++ [(cpath, buildPure H scope (.mk cid cpath cattrs cchildren))]

def pureEntriesList (H : String → String) (parent : Construct) :
    List Construct → Record Node
  | [] => []
  | c :: rest => pureEntries H (some parent) c ++ pureEntriesList H parent rest

end

/-- Pairwise distinctness of a list of strings, executable. -/
def distinct : List String → Bool
  | [] => true
  | x :: xs => !(xs.contains x) && distinct xs

mutual

/-- No attribute introspection in the subtree throws. -/
def noThrow : Construct → Bool
  | .mk _ _ cattrs cchildren =>
    (match cattrs with | .ok _ => true | .error _ => false) && noThrowList cchildren

def noThrowList : List Construct → Bool
  | [] => true
  | c :: rest => noThrow c && noThrowList rest

end

mutual

/-- All construct paths in the subtree, preorder. -/
def cpaths : Construct → List String
  | .mk _ cpath _ cchildren => cpath :: cpathsList cchildren

def cpathsList : List Construct → List String
  | [] => []
  | c :: rest => cpaths c ++ cpathsList rest

end

/-- The node id the builder derives for a construct (source line 64: an
empty id - the root - becomes "App"). -/
def nodeIdOf (c : Construct) : String := if c.id == "" then "App" else c.id

mutual

/-- Derived sibling node ids are pairwise distinct throughout the subtree. -/
def goodIds : Construct → Bool
  | .mk _ _ _ cchildren => distinct (cchildren.map nodeIdOf) && goodIdsList cchildren

def goodIdsList : List Construct → Bool
  | [] => true
  | c :: rest => goodIds c && goodIdsList rest

end

mutual

/-- The recursion `recur` of source `foo`, threading the result record: at a
leaf (absent or empty children record) set `result[hash] = path`, otherwise
recurse over the children values in insertion order. -/
def fooGo : Node → Record String → Record String
  | .mk _ npath _ nchildren _ nhash, acc =>
    if nchildren.isEmpty then recordSet acc nhash npath
    else fooGoList nchildren acc

def fooGoList : List (String × Node) → Record String → Record String
  | [], acc => acc
  | (_, c) :: rest, acc => fooGoList rest (fooGo c acc)

end

/-- Source `foo`: the map from leaf hash to leaf path. -/
def foo (n : Node) : Record String := fooGo n []

mutual

/-- Leaf (hash, path) pairs of a tree in traversal order. -/
def leafEntries : Node → List (String × String)
  | .mk _ npath _ nchildren _ nhash =>
    if nchildren.isEmpty then [(nhash, npath)] else leafEntriesList nchildren

def leafEntriesList : List (String × Node) → List (String × String)
  | [] => []
  | (_, c) :: rest => leafEntries c ++ leafEntriesList rest

end

/-- Leaf paths of a tree. -/
def leafPaths (n : Node) : List String := (leafEntries n).map (fun e => e.2)

/-- The forEach/delete pass of source `treeDifference`: iterate over a
snapshot of the entries of `m1`, deleting from the record each entry whose
path value occurs among the values of `m2`. -/
def deletePass (snapshot : List (String × String)) (m : Record String)
    (vals2 : List String) : Record String :=
  match snapshot with
  | [] => m
  | e :: rest =>
    deletePass rest (if vals2.contains e.2 then recordDelete m e.1 else m) vals2

/-- Source `treeDifference`. -/
def treeDifference (t1 t2 : Node) : Record String :=
  let m1 := foo t1
  let m2 := foo t2
  deletePass m1 m1 (recordValues m2)

/-- The diff report assembled by `_synthesizeTree` lines 91-104. -/
structure SynthDiff where
  removed : Record String
  added : Record String
deriving DecidableEq

/-- The `removed`/`added` pair computed when a previous tree exists. -/
def synthDiff (oldTree newTree : Node) : SynthDiff :=
  ⟨treeDifference oldTree newTree, treeDifference newTree oldTree⟩

/-- Source `getNodeWithParents`, with explicit recursion fuel: the JS
recursion walks parent paths through the lookup table, which terminates on
builder-produced tables; a missing parent entry (where the JS would crash
reading a property of `undefined`) is modelled as stopping, and no claim
exercises that branch. -/
def getNodeWithParents (lookup : Record Node) : Nat → Node → Node
  | 0, n => n
  | fuel + 1, n =>
    match n with
    | .mk i pa par cs a h =>
      match par with
      | none => .mk i pa par cs a h
      | some p =>
        match recordGet lookup p.path with
        | none => .mk i pa par cs a h
        | some q => .mk i pa (some (getNodeWithParents lookup fuel q)) cs a h

/-- Source `renderTreeWithChildren`: while the node has a parent, recurse
upward passing the current node as the child; at the top, if a child was
passed, replace the children record with the single entry for that child. -/
def renderTreeWithChildren : Node → Option Node → Node
  | .mk i pa (some p) cs a h, _ =>
    renderTreeWithChildren p (some (.mk i pa (some p) cs a h))
  | .mk i pa none _ a h, some ch => .mk i pa none [(ch.id, ch)] a h
  | .mk i pa none cs a h, none => .mk i pa none cs a h

/-- Source `_getNodeBranch`, over an already-built lookup table (`none`
models the throw when the tree has not been created or the path is
unknown). -/
def getNodeBranch (lookup : Record Node) (fuel : Nat) (constructPath : String) :
    Option Node :=
  match recordGet lookup constructPath with
  | none => none
  | some t => some (renderTreeWithChildren (getNodeWithParents lookup fuel t) none)

theorem sizeOf_filter_le {α : Type} [SizeOf α] (p : α → Bool) (l : List α) :
    sizeOf (l.filter p) ≤ sizeOf l := by
  induction l with
  | nil => simp
  | cons x xs ih =>
    rw [List.filter_cons]
    split <;> simp <;> omega

mutual

/-- `JSON.stringify` without a replacer, insertion order preserved.
Indentation and string escaping are elided (they are applied uniformly on
both sides of every statement below); `Date` values stringify via their
`toJSON` ISO string and `null` as the `null` literal. -/
def jstr : JVal → String
  | .str s => "\"" ++ s ++ "\""
  | .num n => toString n
  | .bool b => cond b "true" "false"
  | .null => "null"
  | .date d => "\"" ++ d ++ "\""
  | .arr l => "[" ++ jstrElems l ++ "]"
  | .obj l => "\x7b" ++ jstrMembers l ++ "\x7d"
termination_by v => (sizeOf v, 0)
decreasing_by all_goals (simp_wf; omega)

def jstrElems : List JVal → String
  | [] => ""
  | [v] => jstr v
  | v :: w :: vs => jstr v ++ "," ++ jstrElems (w :: vs)
termination_by l => (sizeOf l, 0)
decreasing_by all_goals (simp_wf; omega)

def jstrMembers : List (String × JVal) → String
  | [] => ""
  | [(k, v)] => "\"" ++ k ++ "\":" ++ jstr v
  | (k, v) :: q :: ps => "\"" ++ k ++ "\":" ++ jstr v ++ "," ++ jstrMembers (q :: ps)
termination_by l => (sizeOf l, 0)
decreasing_by all_goals (simp_wf; omega)

end

mutual

/-- `JSON.stringify` with the replacer of `_synthesizeTree` lines 106-112:
every property whose key is literally `parent` is dropped, at every nesting
depth (the replacer sees every key of every object, including those inside
an `attributes` mapping). -/
def jstrDrop : JVal → String
  | .str s => "\"" ++ s ++ "\""
  | .num n => toString n
  | .bool b => cond b "true" "false"
  | .null => "null"
  | .date d => "\"" ++ d ++ "\""
  | .arr l => "[" ++ jstrDropElems l ++ "]"
  | .obj l => "\x7b" ++ jstrDropMembers (l.filter (fun p => !(p.1 == "parent"))) ++ "\x7d"
termination_by v => (sizeOf v, 0)
decreasing_by all_goals
  (simp_wf; first
    | omega
    | (have hsz := sizeOf_filter_le (fun p : String × JVal => !(p.1 == "parent")) l; omega))

def jstrDropElems : List JVal → String
  | [] => ""
  | [v] => jstrDrop v
  | v :: w :: vs => jstrDrop v ++ "," ++ jstrDropElems (w :: vs)
termination_by l => (sizeOf l, 0)
decreasing_by all_goals (simp_wf; omega)

def jstrDropMembers : List (String × JVal) → String
  | [] => ""
  | [(k, v)] => "\"" ++ k ++ "\":" ++ jstrDrop v
  | (k, v) :: q :: ps => "\"" ++ k ++ "\":" ++ jstrDrop v ++ "," ++ jstrDropMembers (q :: ps)
termination_by l => (sizeOf l, 0)
decreasing_by all_goals (simp_wf; omega)

end

mutual

/-- Specification-side transform: remove every key named `parent` at every
nesting depth, leaving all other keys and values unchanged. -/
def stripParent : JVal → JVal
  | .str s => .str s
  | .num n => .num n
  | .bool b => .bool b
  | .null => .null
  | .date d => .date d
  | .arr l => .arr (stripParentElems l)
  | .obj l => .obj (stripParentMembers (l.filter (fun p => !(p.1 == "parent"))))
termination_by v => (sizeOf v, 0)
decreasing_by all_goals
  (simp_wf; first
    | omega
    | (have hsz := sizeOf_filter_le (fun p : String × JVal => !(p.1 == "parent")) l; omega))

def stripParentElems : List JVal → List JVal
  | [] => []
  | v :: vs => stripParent v :: stripParentElems vs
termination_by l => (sizeOf l, 0)
decreasing_by all_goals (simp_wf; omega)

def stripParentMembers : List (String × JVal) → List (String × JVal)
  | [] => []
  | (k, v) :: ps => (k, stripParent v) :: stripParentMembers ps
termination_by l => (sizeOf l, 0)
decreasing_by all_goals (simp_wf; omega)

end

mutual

/-- The JSON value `JSON.stringify` is given for a built node: properties
whose value is `undefined` (`parent` without a truthy scope, `children` when
the builder stored `undefined`, absent `attributes`) are omitted, matching
source lines 63-76; `constructInfo` is external metadata, not modelled. -/
def nodeToJVal : Node → JVal
  | .mk i pa par cs a h =>
    .obj ([("id", .str i), ("path", .str pa)]
      ++ (match par with
          | some p => [("parent", nodeToJVal p)]
          | none => [])
      ++ (match cs with
          | [] => []
          | _ => [("children", .obj (nodeChildrenToJVal cs))])
      ++ (match a with
          | some m => [("attributes", .obj m)]
          | none => [])
      ++ [("hash", .str h)])

def nodeChildrenToJVal : List (String × Node) → List (String × JVal)
  | [] => []
  | (k, c) :: rest => (k, nodeToJVal c) :: nodeChildrenToJVal rest

end

/-- The JSON document persisted as `tree.json` (source lines 83-86): version
marker plus the root node. -/
def treeJson (root : Node) : JVal :=
  .obj [("version", .str "tree-0.1"), ("tree", nodeToJVal root)]

/-- The persisted file content: the tree document serialized with the
parent-dropping replacer (source line 106). -/
def persistedTreeFile (root : Node) : String := jstrDrop (treeJson root)

/-- DynamoDB `GlobalTableAttributes` (all fields optional). -/
structure GlobalTableAttributes where
  tableArn : Option String
  tableName : Option String
  tableId : Option String
  tableStreamArn : Option String
deriving DecidableEq

/-- The `Import` resource produced on the non-throwing path of
`fromTableAttributes`. -/
structure ImportedTable where
  tableArn : String
  tableName : String
  tableId : Option String
  tableStreamArn : Option String
deriving DecidableEq

/-- JS truthiness of an optional string: `undefined` and `""` are falsy. -/
def truthy : Option String → Bool
  | none => false
  | some s => !(s == "")

def onlyOneMsg : String := "Only one of tableArn or tableName can be provided, but not both"

def atLeastOneMsg : String := "At least one of tableArn or tableName must be provided"

/-- Source `GlobalTable.fromTableAttributes` (lines 405-449). `formatArn`
abstracts `stack.formatArn` (building a table ARN from a table name). The
`else` branch immediately re-tests `attrs.tableArn`, which is necessarily
truthy there, so that branch always throws; the ARN-splitting code after the
throw is unreachable and therefore elided. -/
def fromTableAttributes (formatArn : String → String)
    (attrs : GlobalTableAttributes) : Except String ImportedTable :=
  if !(truthy attrs.tableArn) then
    if !(truthy attrs.tableName) then .error atLeastOneMsg
    else
      let name := attrs.tableName.getD ""
      .ok ⟨formatArn name, name, attrs.tableId, attrs.tableStreamArn⟩
  else .error onlyOneMsg

/-- Source `GlobalTable.fromTableArn`. -/
def fromTableArn (formatArn : String → String) (tableArn : String) :
    Except String ImportedTable :=
  fromTableAttributes formatArn ⟨some tableArn, none, none, none⟩

/-- Source `GlobalTable.fromTableName`. -/
def fromTableName (formatArn : String → String) (tableName : String) :
    Except String ImportedTable :=
  fromTableAttributes formatArn ⟨none, some tableName, none, none⟩

theorem recordGet_append {α : Type} (l1 l2 : Record α) (h : String) :
    recordGet (l1 ++ l2) h =
      match recordGet l1 h with
      | some w => some w
      | none => recordGet l2 h := by
  induction l1 with
  | nil => simp [recordGet]
  | cons p rest ih =>
    by_cases hp : p.1 = h
    · simp [recordGet, hp]
    · simp only [List.cons_append, recordGet, beq_iff_eq, hp, if_false]
      exact ih

theorem recordGet_none_of_not_any {α : Type} {m : Record α} {k : String}
    (hk : m.any (fun p => p.1 == k) = false) : recordGet m k = none := by
  induction m with
  | nil => rfl
  | cons p rest ih =>
    simp only [List.any_cons, Bool.or_eq_false_iff] at hk
    have hp : ¬ p.1 = k := by simpa using hk.1
    simp only [recordGet, beq_iff_eq, hp, if_false]
    exact ih hk.2

theorem recordGet_cons {α : Type} (a : String) (b : α) (rest : Record α) (h : String) :
    recordGet ((a, b) :: rest) h = if a == h then some b else recordGet rest h := rfl

theorem recordGet_mapRepl_ne {α : Type} (m : Record α) (k h : String) (v : α)
    (hne : ¬ k = h) :
    recordGet (m.map (fun p => if p.1 == k then (k, v) else p)) h = recordGet m h := by
  induction m with
  | nil => rfl
  | cons p rest ih =>
    rcases p with ⟨a, b⟩
    simp only [List.map_cons]
    by_cases hp : a = k
    · rw [if_pos (by simpa using hp), recordGet_cons, recordGet_cons,
        if_neg (by simpa using hne), if_neg (by simpa using hp ▸ hne : ¬ (a == h) = true)]
      exact ih
    · rw [if_neg (by simpa using hp), recordGet_cons, recordGet_cons]
      by_cases hph : a = h
      · rw [if_pos (by simpa using hph), if_pos (by simpa using hph)]
      · rw [if_neg (by simpa using hph), if_neg (by simpa using hph)]
        exact ih

theorem recordGet_mapRepl_eq {α : Type} (m : Record α) (k : String) (v : α)
    (hin : m.any (fun p => p.1 == k) = true) :
    recordGet (m.map (fun p => if p.1 == k then (k, v) else p)) k = some v := by
  induction m with
  | nil => simp at hin
  | cons p rest ih =>
    rcases p with ⟨a, b⟩
    simp only [List.map_cons]
    by_cases hp : a = k
    · rw [if_pos (by simpa using hp), recordGet_cons, if_pos (by simp)]
    · rw [if_neg (by simpa using hp), recordGet_cons, if_neg (by simpa using hp)]
      simp only [List.any_cons, Bool.or_eq_true] at hin
      rcases hin with hin | hin
      · exact absurd (by simpa using hin) hp
      · exact ih hin

theorem recordGet_recordSet {α : Type} (m : Record α) (k h : String) (v : α) :
    recordGet (recordSet m k v) h = if k = h then some v else recordGet m h := by
  unfold recordSet
  by_cases hany : m.any (fun p => p.1 == k) = true
  · rw [if_pos hany]
    by_cases hk : k = h
    · subst hk
      rw [recordGet_mapRepl_eq m k v hany, if_pos rfl]
    · rw [recordGet_mapRepl_ne m k h v hk, if_neg hk]
  · rw [if_neg hany]
    rw [recordGet_append]
    by_cases hk : k = h
    · subst hk
      rw [recordGet_none_of_not_any (Bool.not_eq_true _ ▸ hany)]
      rw [recordGet_cons, if_pos (by simp)]
      simp
    · have h1 : recordGet [(k, v)] h = none := by
        rw [recordGet_cons, if_neg (by simpa using hk)]
        rfl
      rw [h1]
      cases hg : recordGet m h <;> simp [hk]

theorem recordKeys_append {α : Type} (a b : Record α) :
    recordKeys (a ++ b) = recordKeys a ++ recordKeys b :=
  List.map_append _ a b

theorem recordKeys_mapRepl {α : Type} (m : Record α) (k : String) (v : α) :
    recordKeys (m.map (fun p => if p.1 == k then (k, v) else p)) = recordKeys m := by
  induction m with
  | nil => rfl
  | cons p rest ih =>
    rcases p with ⟨a, b⟩
    simp only [List.map_cons]
    by_cases hp : a = k
    · rw [if_pos (by simpa using hp)]
      simp only [recordKeys, List.map_cons] at ih ⊢
      rw [ih]
      simp [hp]
    · rw [if_neg (by simpa using hp)]
      simp only [recordKeys, List.map_cons] at ih ⊢
      rw [ih]

theorem recordSet_fresh {α : Type} (m : Record α) (k : String) (v : α)
    (h : ¬ k ∈ recordKeys m) : recordSet m k v = m ++ [(k, v)] := by
  unfold recordSet
  rw [if_neg]
  intro hc
  rcases List.any_eq_true.mp hc with ⟨p, hp, hpk⟩
  exact h (by
    have : p.1 = k := by simpa using hpk
    exact this ▸ List.mem_map_of_mem (fun q => q.1) hp)

theorem recordKeys_recordSet_nodup {α : Type} (m : Record α) (k : String) (v : α)
    (h : (recordKeys m).Nodup) : (recordKeys (recordSet m k v)).Nodup := by
  unfold recordSet
  by_cases hany : m.any (fun p => p.1 == k) = true
  · rw [if_pos hany, recordKeys_mapRepl]
    exact h
  · rw [if_neg hany, recordKeys_append]
    have hk : ¬ k ∈ recordKeys m := by
      intro hc
      rcases List.mem_map.mp hc with ⟨p, hp, hpk⟩
      exact hany (List.any_eq_true.mpr ⟨p, hp, by simpa using hpk⟩)
    simp only [recordKeys, List.nodup_append, List.map_cons, List.map_nil]
    refine ⟨h, by simp, ?_⟩
    intro x hx hy
    rw [List.mem_singleton] at hy
    exact hk (hy ▸ hx)

theorem foldl_recordSet_fresh {α : Type} :
    ∀ (l : List (String × α)) (m : Record α),
      (recordKeys m ++ recordKeys l).Nodup →
      l.foldl (fun acc e => recordSet acc e.1 e.2) m = m ++ l
  | [], m, _ => by simp
  | e :: l, m, h => by
    have hfresh : ¬ e.1 ∈ recordKeys m := by
      have hdis := List.disjoint_of_nodup_append h
      intro hc
      exact hdis hc (by simp [recordKeys])
    have hstep : recordSet m e.1 e.2 = m ++ [e] := by
      rw [recordSet_fresh m e.1 e.2 hfresh]
    simp only [List.foldl_cons, hstep]
    have hre : recordKeys (m ++ [e]) ++ recordKeys l = recordKeys m ++ recordKeys (e :: l) := by
      rw [recordKeys_append]
      simp [recordKeys]
    rw [foldl_recordSet_fresh l (m ++ [e]) (by rw [hre]; exact h)]
    simp

theorem recordGet_foldl_recordSet :
    ∀ (l : List (String × String)) (m : Record String) (h : String),
      recordGet (l.foldl (fun acc e => recordSet acc e.1 e.2) m) h =
        match (l.filter (fun e => e.1 == h)).getLast? with
        | some e => some e.2
        | none => recordGet m h
  | [], m, h => by simp
  | e :: l, m, h => by
    simp only [List.foldl_cons, List.filter_cons]
    by_cases he : e.1 = h
    · rw [if_pos (by simpa using he)]
      rw [recordGet_foldl_recordSet l (recordSet m e.1 e.2) h]
      rw [List.getLast?_cons]
      cases hfl : (l.filter (fun e => e.1 == h)).getLast? with
      | some e2 => simp
      | none =>
        simp only [Option.getD_none]
        rw [recordGet_recordSet, if_pos he]
    · rw [if_neg (by simpa using he)]
      rw [recordGet_foldl_recordSet l (recordSet m e.1 e.2) h]
      cases hfl : (l.filter (fun e => e.1 == h)).getLast? with
      | some e2 => simp
      | none =>
        simp only []
        rw [recordGet_recordSet, if_neg he]

theorem deletePass_no_value (p : String) (vals2 : List String) (hp : p ∈ vals2) :
    ∀ (snapshot : List (String × String)) (m : Record String),
      (∀ e ∈ m, e.2 = p → e ∈ snapshot) →
      ∀ e ∈ deletePass snapshot m vals2, ¬ e.2 = p := by
  intro snapshot
  induction snapshot with
  | nil =>
    intro m hm e he hep
    unfold deletePass at he
    exact absurd (hm e he hep) (List.not_mem_nil e)
  | cons e0 rest ih =>
    intro m hm e he hep
    unfold deletePass at he
    by_cases hc : vals2.contains e0.2 = true
    · rw [if_pos hc] at he
      refine ih (recordDelete m e0.1) ?_ e he hep
      intro e' he' he'p
      have he'm : e' ∈ m := List.mem_of_mem_filter he'
      rcases List.mem_cons.mp (hm e' he'm he'p) with h0 | hr
      · exfalso
        have hne := List.of_mem_filter he'
        simp only [h0, beq_self_eq_true, Bool.not_true] at hne
        exact absurd hne (by simp)
      · exact hr
    · rw [if_neg hc] at he
      refine ih m ?_ e he hep
      intro e' he' he'p
      rcases List.mem_cons.mp (hm e' he' he'p) with h0 | hr
      · exact absurd (List.elem_iff.mpr (h0 ▸ he'p ▸ hp)) hc
      · exact hr

theorem deletePass_empty (vals2 : List String) :
    ∀ (snapshot : List (String × String)) (m : Record String),
      (∀ e ∈ m, e ∈ snapshot) → (∀ e ∈ m, e.2 ∈ vals2) →
      deletePass snapshot m vals2 = [] := by
  intro snapshot
  induction snapshot with
  | nil =>
    intro m hm _
    unfold deletePass
    exact List.eq_nil_iff_forall_not_mem.mpr (fun e he => List.not_mem_nil e (hm e he))
  | cons e0 rest ih =>
    intro m hm hv
    unfold deletePass
    by_cases hc : vals2.contains e0.2 = true
    · rw [if_pos hc]
      refine ih (recordDelete m e0.1) ?_ ?_
      · intro e' he'
        have he'm : e' ∈ m := List.mem_of_mem_filter he'
        rcases List.mem_cons.mp (hm e' he'm) with h0 | hr
        · exfalso
          have hne := List.of_mem_filter he'
          simp only [h0, beq_self_eq_true, Bool.not_true] at hne
          exact absurd hne (by simp)
        · exact hr
      · intro e' he'
        exact hv e' (List.mem_of_mem_filter he')
    · rw [if_neg hc]
      refine ih m ?_ (fun e' he' => hv e' he')
      intro e' he'
      rcases List.mem_cons.mp (hm e' he') with h0 | hr
      · exact absurd (List.elem_iff.mpr (h0 ▸ hv e' he')) hc
      · exact hr

theorem mem_of_mem_deletePass :
    ∀ (snapshot : List (String × String)) (m : Record String) (vals2 : List String),
      ∀ e ∈ deletePass snapshot m vals2, e ∈ m := by
  intro snapshot
  induction snapshot with
  | nil =>
    intro m vals2 e he
    unfold deletePass at he
    exact he
  | cons e0 rest ih =>
    intro m vals2 e he
    unfold deletePass at he
    by_cases hc : vals2.contains e0.2 = true
    · rw [if_pos hc] at he
      exact List.mem_of_mem_filter (ih (recordDelete m e0.1) vals2 e he)
    · rw [if_neg hc] at he
      exact ih m vals2 e he

theorem deletePass_keys_nodup :
    ∀ (snapshot : List (String × String)) (m : Record String) (vals2 : List String),
      (recordKeys m).Nodup → (recordKeys (deletePass snapshot m vals2)).Nodup := by
  intro snapshot
  induction snapshot with
  | nil =>
    intro m vals2 hm
    unfold deletePass
    exact hm
  | cons e0 rest ih =>
    intro m vals2 hm
    unfold deletePass
    by_cases hc : vals2.contains e0.2 = true
    · rw [if_pos hc]
      refine ih (recordDelete m e0.1) vals2 ?_
      have hs : List.Sublist (recordDelete m e0.1) m := List.filter_sublist m
      have hs2 : List.Sublist (recordKeys (recordDelete m e0.1)) (recordKeys m) := by
        unfold recordKeys
        exact hs.map (fun p => p.1)
      exact hs2.nodup hm
    · rw [if_neg hc]
      exact ih m vals2 hm

mutual

theorem fooGo_eq : ∀ (n : Node) (acc : Record String),
    fooGo n acc = (leafEntries n).foldl (fun m e => recordSet m e.1 e.2) acc
  | .mk i pa par cs a h, acc => by
    unfold fooGo leafEntries
    by_cases hcs : cs.isEmpty = true
    · rw [if_pos hcs, if_pos hcs]
      simp
    · rw [if_neg hcs, if_neg hcs]
      exact fooGoList_eq cs acc

theorem fooGoList_eq : ∀ (l : List (String × Node)) (acc : Record String),
    fooGoList l acc = (leafEntriesList l).foldl (fun m e => recordSet m e.1 e.2) acc
  | [], acc => by
    unfold fooGoList leafEntriesList
    simp
  | (k, c) :: rest, acc => by
    unfold fooGoList leafEntriesList
    rw [fooGoList_eq rest (fooGo c acc), fooGo_eq c acc, List.foldl_append]

end

theorem foo_eq (n : Node) :
    foo n = (leafEntries n).foldl (fun m e => recordSet m e.1 e.2) [] :=
  fooGo_eq n []

theorem foldl_recordSet_nodup :
    ∀ (l : List (String × String)) (m : Record String),
      (recordKeys m).Nodup →
      (recordKeys (l.foldl (fun acc e => recordSet acc e.1 e.2) m)).Nodup
  | [], m, hm => hm
  | e :: l, m, hm => by
    rw [List.foldl_cons]
    exact foldl_recordSet_nodup l (recordSet m e.1 e.2) (recordKeys_recordSet_nodup m e.1 e.2 hm)

theorem foo_keys_nodup (n : Node) : (recordKeys (foo n)).Nodup := by
  rw [foo_eq]
  exact foldl_recordSet_nodup (leafEntries n) [] (by simp [recordKeys])

theorem foo_of_nodup_hashes (n : Node)
    (h : ((leafEntries n).map (fun e => e.1)).Nodup) : foo n = leafEntries n := by
  rw [foo_eq]
  have := foldl_recordSet_fresh (leafEntries n) []
    (by simpa [recordKeys] using h)
  simpa using this

/-- C5: for every well-formed tree `t`, diffing `t` against itself yields an
empty `removed` mapping and an empty `added` mapping - every entry of the
leaf map has its path among the values of the identical other leaf map, so
the delete pass removes every entry. -/
theorem c5_diff_self_empty (t : Node) : synthDiff t t = ⟨[], []⟩ := by
  have h : treeDifference t t = [] := by
    unfold treeDifference
    refine deletePass_empty (recordValues (foo t)) (foo t) (foo t) (fun e he => he) ?_
    intro e he
    exact List.mem_map_of_mem (fun p => p.2) he
  unfold synthDiff
  rw [h]

/-- Old tree for the C2 counterexample: a single leaf at path `X` carrying
hash `h1`. -/
def c2old : Node := .mk "App" "" none [("X", .mk "X" "X" none [] none "h1")] none "r1"

/-- New tree for the C2 counterexample: the leaf at path `X` now carries
hash `h2`, and a second leaf at path `Y` carries the same hash `h2`, so the
new tree's hash-to-path map retains only `Y` for `h2`. -/
def c2new : Node :=
  .mk "App" "" none
    [("X", .mk "X" "X" none [] none "h2"), ("Y", .mk "Y" "Y" none [] none "h2")] none "r2"

/-- C2 counterexample: path `X` is a leaf path in both trees (with different
hashes), yet the Differ does report a removed entry for it: inside the new
tree another leaf shares hash `h2`, so the new leaf map retains only the
later path `Y`, the path `X` no longer occurs among the new map's values,
and the old entry `("h1", "X")` survives the delete pass. -/
theorem c2_counterexample :
    "X" ∈ leafPaths c2old ∧ "X" ∈ leafPaths c2new ∧
    treeDifference c2old c2new = [("h1", "X")] := by
  refine ⟨?_, ?_, ?_⟩
  · simp [leafPaths, leafEntries, leafEntriesList, c2old]
  · simp [leafPaths, leafEntries, leafEntriesList, c2new]
  · simp [treeDifference, c2old, c2new, foo, fooGo, fooGoList, recordSet, recordValues,
      deletePass, recordDelete]

/-- C2 as amended: when, within each tree, no two leaves share a hash, a
leaf path occurring in both trees yields neither a removed nor an added
entry, even when its hash differs between the trees - the join key of the
delete pass is the path. -/
theorem c2_amended (told tnew : Node) (p : String)
    (hold : ((leafEntries told).map (fun e => e.1)).Nodup)
    (hnew : ((leafEntries tnew).map (fun e => e.1)).Nodup)
    (hpo : p ∈ leafPaths told) (hpn : p ∈ leafPaths tnew) :
    (∀ e ∈ (synthDiff told tnew).removed, ¬ e.2 = p) ∧
    (∀ e ∈ (synthDiff told tnew).added, ¬ e.2 = p) := by
  constructor
  · intro e he
    unfold synthDiff treeDifference at he
    refine deletePass_no_value p (recordValues (foo tnew)) ?_ (foo told) (foo told)
      (fun e' he' _ => he') e he
    rw [foo_of_nodup_hashes tnew hnew]
    exact hpn
  · intro e he
    unfold synthDiff treeDifference at he
    refine deletePass_no_value p (recordValues (foo told)) ?_ (foo tnew) (foo tnew)
      (fun e' he' _ => he') e he
    rw [foo_of_nodup_hashes told hold]
    exact hpo

/-- Witness input for `c2_amended`: single leaf at path `X`, hash `h1`. -/
def c2wOld : Node := .mk "App" "" none [("X", .mk "X" "X" none [] none "h1")] none "r1"

/-- Witness input for `c2_amended`: single leaf at path `X`, hash `h2`. -/
def c2wNew : Node := .mk "App" "" none [("X", .mk "X" "X" none [] none "h2")] none "r2"

/-- Witness for `c2_amended` at concrete trees where the leaf at path `X`
changed hash from `h1` to `h2`. -/
theorem c2_amended_witness :
    ((leafEntries c2wOld).map (fun e => e.1)).Nodup ∧
    ((leafEntries c2wNew).map (fun e => e.1)).Nodup ∧
    "X" ∈ leafPaths c2wOld ∧ "X" ∈ leafPaths c2wNew ∧
    ((∀ e ∈ (synthDiff c2wOld c2wNew).removed, ¬ e.2 = "X") ∧
     (∀ e ∈ (synthDiff c2wOld c2wNew).added, ¬ e.2 = "X")) :=
  ⟨by simp [leafEntries, leafEntriesList, c2wOld],
   by simp [leafEntries, leafEntriesList, c2wNew],
   by simp [leafPaths, leafEntries, leafEntriesList, c2wOld],
   by simp [leafPaths, leafEntries, leafEntriesList, c2wNew],
   c2_amended c2wOld c2wNew "X"
     (by simp [leafEntries, leafEntriesList, c2wOld])
     (by simp [leafEntries, leafEntriesList, c2wNew])
     (by simp [leafPaths, leafEntries, leafEntriesList, c2wOld])
     (by simp [leafPaths, leafEntries, leafEntriesList, c2wNew])⟩

/-- Old tree for the C9 omission scenario: leaves `p1` and `p2` carry the
same hash `h`; the traversal visits `p1` first, so the hash map retains only
`p2`. -/
def c9old : Node :=
  .mk "App" "" none
    [("P1", .mk "P1" "p1" none [] none "h"), ("P2", .mk "P2" "p2" none [] none "h")]
    none "r1"

/-- New tree for the C9 omission scenario: only the leaf `p2` remains. -/
def c9new : Node := .mk "App" "" none [("P2", .mk "P2" "p2" none [] none "h")] none "r2"

/-- C9: the leaf hash-to-path map keeps, for each hash, the path of the leaf
visited last in traversal order (first conjunct); the removed mapping has at
most one entry per hash key (second conjunct); and a genuinely removed leaf
path can be omitted from the removed report when its hash also occurs on a
surviving leaf (third conjunct: `p1` is a leaf of the old tree, absent from
the new tree, yet the removed mapping is empty). -/
theorem c9_duplicate_hash_last_wins :
    (∀ (t : Node) (h : String),
      recordGet (foo t) h =
        match ((leafEntries t).filter (fun e => e.1 == h)).getLast? with
        | some e => some e.2
        | none => none) ∧
    (∀ (t1 t2 : Node), (recordKeys (treeDifference t1 t2)).Nodup) ∧
    ("p1" ∈ leafPaths c9old ∧ ¬ "p1" ∈ leafPaths c9new ∧
      treeDifference c9old c9new = []) := by
  refine ⟨?_, ?_, ?_, ?_, ?_⟩
  · intro t h
    rw [foo_eq, recordGet_foldl_recordSet]
    cases hm : ((leafEntries t).filter (fun e => e.1 == h)).getLast? with
    | some e => simp
    | none => simp [recordGet]
  · intro t1 t2
    unfold treeDifference
    exact deletePass_keys_nodup (foo t1) (foo t1) (recordValues (foo t2)) (foo_keys_nodup t1)
  · simp [leafPaths, leafEntries, leafEntriesList, c9old]
  · simp [leafPaths, leafEntries, leafEntriesList, c9new]
  · simp [treeDifference, c9old, c9new, foo, fooGo, fooGoList, recordSet, recordValues,
      deletePass, recordDelete]

/-- Concrete `formatArn` used in C8 evaluations. -/
def c8fmt (name : String) : String := "arn:aws:dynamodb:us-east-1:table/" ++ name

/-- C8 counterexample: `tableArn` is provided (as the empty string, which is
falsy in JS) together with `tableName`, and `fromTableAttributes` does not
raise at all - it takes the name branch and returns an import - so the claim
quantified over every attributes argument with `tableArn` provided is false
as stated. -/
theorem c8_counterexample :
    fromTableAttributes c8fmt ⟨some "", some "t", none, none⟩ =
      .ok ⟨"arn:aws:dynamodb:us-east-1:table/t", "t", none, none⟩ ∧
    ∀ e : String, ¬ fromTableAttributes c8fmt ⟨some "", some "t", none, none⟩ = .error e := by
  refine ⟨rfl, ?_⟩
  intro e h
  rw [(rfl : fromTableAttributes c8fmt ⟨some "", some "t", none, none⟩ =
    .ok ⟨"arn:aws:dynamodb:us-east-1:table/t", "t", none, none⟩)] at h
  exact Except.noConfusion h

/-- C8 as amended: for every attributes argument providing a truthy
(non-empty) `tableArn` - whether or not `tableName` is also provided - the
guard in the branch taken re-tests `attrs.tableArn` and always throws the
"Only one of tableArn or tableName" error; consequently `fromTableArn`
raises on every input (with the "At least one" error when the ARN is the
empty string). -/
theorem c8_amended :
    (∀ (formatArn : String → String) (attrs : GlobalTableAttributes) (arn : String),
      attrs.tableArn = some arn → ¬ arn = "" →
      fromTableAttributes formatArn attrs = .error onlyOneMsg) ∧
    (∀ (formatArn : String → String) (arn : String),
      ∃ e, fromTableArn formatArn arn = .error e) := by
  have hmain : ∀ (formatArn : String → String) (attrs : GlobalTableAttributes) (arn : String),
      attrs.tableArn = some arn → ¬ arn = "" →
      fromTableAttributes formatArn attrs = .error onlyOneMsg := by
    intro formatArn attrs arn harn hne
    unfold fromTableAttributes
    rw [harn]
    have ht : truthy (some arn) = true := by
      unfold truthy
      simpa using hne
    rw [ht]
    rfl
  refine ⟨hmain, ?_⟩
  intro formatArn arn
  by_cases h0 : arn = ""
  · subst h0
    exact ⟨atLeastOneMsg, rfl⟩
  · exact ⟨onlyOneMsg, hmain formatArn ⟨some arn, none, none, none⟩ arn rfl h0⟩

/-- Witness for `c8_amended`: a concrete non-empty ARN always hits the
"Only one" throw, and `fromTableArn` on the empty string also raises. -/
theorem c8_amended_witness :
    (⟨some "a", some "t", none, none⟩ : GlobalTableAttributes).tableArn = some "a" ∧
    ¬ "a" = "" ∧
    fromTableAttributes c8fmt ⟨some "a", some "t", none, none⟩ = .error onlyOneMsg ∧
    (∃ e, fromTableArn c8fmt "" = .error e) :=
  ⟨rfl, by decide, c8_amended.1 c8fmt ⟨some "a", some "t", none, none⟩ "a" rfl (by decide),
    c8_amended.2 c8fmt ""⟩

/-- C1 failing input: a child whose attribute introspection throws. -/
def c1bad : Construct := .mk "Bad" "Bad" (.error "boom") []

/-- C1 failing input: a sibling whose visit succeeds. -/
def c1sib : Construct := .mk "Sib" "Sib" (.ok (some [("x", .num 1)])) []

/-- C1 failing input: root with exactly one failing child and one healthy
sibling. -/
def c1root : Construct := .mk "" "" (.ok none) [c1bad, c1sib]

/-- C1 nested variant: the failing child sits one level deeper. -/
def c1mid : Construct := .mk "Mid" "Mid" (.ok none)
  [.mk "Bad" "Mid/Bad" (.error "boom") [], .mk "Sib" "Mid/Sib" (.ok (some [("x", .num 1)])) []]

/-- C1 nested variant root. -/
def c1root2 : Construct := .mk "" "" (.ok none) [c1mid]

/-- C1 evaluated on the code: when exactly one node's attribute
introspection throws, the catch does record exactly one warning and exclude
the child from the children map, but the parent then reads
`lookup[child.path].hash` for every construct child, and the failed child
was never stored in the lookup table, so the parent's own visit throws a
TypeError: with the failure directly under the root the whole pass raises
(conjuncts 1-2), and with the failure one level deeper the error cascades -
a second warning is recorded for the mid node and the pass still raises at
the root (conjuncts 3-4). The Builder never completes the pass. -/
theorem c1_single_failure_aborts_pass :
    (buildTree (fun s => s) c1root).1 = .error typeErrorMsg ∧
    (buildTree (fun s => s) c1root).2.warnings =
      ["Failed to render tree metadata for node [Bad]. Reason: boom"] ∧
    (buildTree (fun s => s) c1root2).1 = .error typeErrorMsg ∧
    (buildTree (fun s => s) c1root2).2.warnings =
      ["Failed to render tree metadata for node [Bad]. Reason: boom",
       "Failed to render tree metadata for node [Mid]. Reason: " ++ typeErrorMsg] := by
  refine ⟨?_, ?_, ?_, ?_⟩ <;>
    simp [buildTree, visit, visitList, c1root, c1root2, c1bad, c1sib, c1mid,
      childLookupHashes, recordGet, recordSet, parentRef, nodeHash, sortStrings,
      List.insertionSort, List.orderedInsert, canonicalize, sortPairs, members, serialize,
      warnMsg, typeErrorMsg, Construct.path, Construct.id]

/-- C4 demo tree: leaf `A/B/C`, target of the branch extraction. -/
def c4C : Construct := .mk "C" "A/B/C" (.ok (some [("c", .num 1)])) []

/-- C4 demo tree: leaf `A/B/D`, sibling of the target. -/
def c4D : Construct := .mk "D" "A/B/D" (.ok (some [("d", .num 2)])) []

/-- C4 demo tree: middle node `A/B` with two children. -/
def c4B : Construct := .mk "B" "A/B" (.ok none) [c4C, c4D]

/-- C4 demo tree: top-level node `A`. -/
def c4A : Construct := .mk "A" "A" (.ok none) [c4B]

/-- C4 demo tree root. -/
def c4root : Construct := .mk "" "" (.ok none) [c4A]

/-- The lookup table the Builder produces for the C4 demo tree. -/
def c4lookup : Record Node := (buildTree (fun s => s) c4root).2.lookup

/-- C4 evaluated on the code: extracting the branch for the 3-level path
`A/B/C` from the built lookup table narrows only the top level - the
returned tree is `A` with the single child `B`, but `B` still carries both
of its original children `C` and `D`: the recursion of
`renderTreeWithChildren` passes `node`, not the re-nested tree, as the new
child, so every level except the top keeps all its children and the target's
sibling `D` appears in the result, contradicting both the claim and the
function's own documentation ("drop any nodes not in that path"). -/
theorem c4_branch_keeps_siblings :
    ((getNodeBranch c4lookup 10 "A/B/C").map (fun b => recordKeys b.children)) = some ["B"] ∧
    ((getNodeBranch c4lookup 10 "A/B/C").map
      (fun b => b.children.map (fun kv => recordKeys kv.2.children))) = some [["C", "D"]] := by
  constructor <;>
    simp [getNodeBranch, getNodeWithParents, renderTreeWithChildren, c4lookup, buildTree,
      visit, visitList, c4root, c4A, c4B, c4C, c4D, childLookupHashes, recordGet, recordSet,
      parentRef, nodeHash, sortStrings, List.insertionSort, List.orderedInsert, canonicalize,
      sortPairs, members, serialize, recordKeys, Construct.path, Construct.id, Node.children,
      Node.parent, Node.id, Node.path,
      (by decide : strLeP "\x7b\"c\":1\x7d" "\x7b\"d\":2\x7d")]

mutual

theorem jstrDrop_eq_strip : ∀ (v : JVal), jstrDrop v = jstr (stripParent v)
  | .str s => by simp [jstrDrop, stripParent, jstr]
  | .num n => by simp [jstrDrop, stripParent, jstr]
  | .bool b => by simp [jstrDrop, stripParent, jstr]
  | .null => by simp [jstrDrop, stripParent, jstr]
  | .date d => by simp [jstrDrop, stripParent, jstr]
  | .arr l => by
    unfold jstrDrop stripParent jstr
    rw [jstrDropElems_eq_strip l]
  | .obj l => by
    unfold jstrDrop stripParent jstr
    rw [jstrDropMembers_eq_strip (l.filter (fun p => !(p.1 == "parent")))]
termination_by v => (sizeOf v, 0)
decreasing_by all_goals
  (simp_wf; first
    | omega
    | (have hsz := sizeOf_filter_le (fun p : String × JVal => !(p.1 == "parent")) l; omega))

theorem jstrDropElems_eq_strip : ∀ (l : List JVal),
    jstrDropElems l = jstrElems (stripParentElems l)
  | [] => by simp [jstrDropElems, stripParentElems, jstrElems]
  | [v] => by
    unfold jstrDropElems stripParentElems jstrElems
    rw [jstrDrop_eq_strip v]
    unfold stripParentElems jstrElems
    rfl
  | v :: w :: vs => by
    unfold jstrDropElems stripParentElems jstrElems
    rw [jstrDrop_eq_strip v, jstrDropElems_eq_strip (w :: vs)]
    unfold stripParentElems
    rfl
termination_by l => (sizeOf l, 0)
decreasing_by all_goals (simp_wf; omega)

theorem jstrDropMembers_eq_strip : ∀ (l : List (String × JVal)),
    jstrDropMembers l = jstrMembers (stripParentMembers l)
  | [] => by simp [jstrDropMembers, stripParentMembers, jstrMembers]
  | [(k, v)] => by
    unfold jstrDropMembers stripParentMembers jstrMembers
    rw [jstrDrop_eq_strip v]
    unfold stripParentMembers jstrMembers
    rfl
  | (k, v) :: q :: ps => by
    unfold jstrDropMembers stripParentMembers jstrMembers
    rw [jstrDrop_eq_strip v, jstrDropMembers_eq_strip (q :: ps)]
    unfold stripParentMembers
    rfl
termination_by l => (sizeOf l, 0)
decreasing_by all_goals (simp_wf; omega)

end

/-- C10: for every built tree, the persisted `tree.json` content (the
serialization that the replacer produces) equals the plain serialization of
the tree document with every key named `parent` removed at every nesting
depth - the replacer sees every key of every object, including keys inside
an `attributes` mapping, and `stripParent` (by definition) changes nothing
except removing `parent` keys. -/
theorem c10_persisted_file_strips_parent (root : Node) :
    persistedTreeFile root = jstr (stripParent (treeJson root)) :=
  jstrDrop_eq_strip (treeJson root)

theorem distinct_iff (l : List String) : distinct l = true ↔ l.Nodup := by
  induction l with
  | nil => simp [distinct]
  | cons x xs ih =>
    simp only [distinct, Bool.and_eq_true, Bool.not_eq_true', List.nodup_cons]
    constructor
    · rintro ⟨h1, h2⟩
      refine ⟨fun hmem => ?_, ih.mp h2⟩
      have h1x : List.elem x xs = false := h1
      rw [List.elem_iff.mpr hmem] at h1x
      exact Bool.noConfusion h1x
    · rintro ⟨h1, h2⟩
      refine ⟨?_, ih.mpr h2⟩
      cases hc : xs.contains x with
      | false => rfl
      | true => exact absurd (List.elem_iff.mp hc) h1

theorem recordGet_none_of_not_mem_keys {α : Type} {m : Record α} {k : String}
    (h : ¬ k ∈ recordKeys m) : recordGet m k = none := by
  refine recordGet_none_of_not_any ?_
  cases hc : m.any (fun p => p.1 == k) with
  | false => rfl
  | true =>
    rcases List.any_eq_true.mp hc with ⟨p, hp, hpk⟩
    exact absurd ((by simpa using hpk : p.1 = k) ▸ List.mem_map_of_mem (fun q => q.1) hp) h

theorem buildPureList_eq_map (H : String → String) (parent : Construct) :
    ∀ (cs : List Construct), buildPureList H parent cs = cs.map (buildPure H (some parent))
  | [] => rfl
  | c :: rest => by
    unfold buildPureList
    rw [buildPureList_eq_map H parent rest]
    rfl

theorem buildPure_id (H : String → String) (sc : Option Construct) (c : Construct) :
    Node.id (buildPure H sc c) = nodeIdOf c := by
  rcases c with ⟨cid, cpath, cattrs, cchildren⟩
  unfold buildPure nodeIdOf Construct.id
  cases cattrs <;> simp [Node.id]

theorem buildPure_path (H : String → String) (sc : Option Construct) (c : Construct) :
    Node.path (buildPure H sc c) = c.path := by
  rcases c with ⟨cid, cpath, cattrs, cchildren⟩
  unfold buildPure Construct.path
  cases cattrs <;> simp [Node.path]

theorem path_mem_cpaths (c : Construct) : c.path ∈ cpaths c := by
  rcases c with ⟨cid, cpath, cattrs, cchildren⟩
  unfold cpaths Construct.path
  exact List.mem_cons_self _ _

theorem cpaths_subset_cpathsList :
    ∀ (cs : List Construct) (c : Construct), c ∈ cs → ∀ p ∈ cpaths c, p ∈ cpathsList cs
  | [], _, hc => absurd hc (List.not_mem_nil _)
  | c0 :: rest, c, hc => by
    intro p hp
    unfold cpathsList
    rcases List.mem_cons.mp hc with h0 | hr
    · exact List.mem_append_left _ (h0 ▸ hp)
    · exact List.mem_append_right _ (cpaths_subset_cpathsList rest c hr p hp)

mutual

theorem keys_pureEntries_perm (H : String → String) (sc : Option Construct) :
    ∀ (c : Construct), (recordKeys (pureEntries H sc c)).Perm (cpaths c)
  | .mk cid cpath cattrs cchildren => by
    unfold pureEntries cpaths
    rw [recordKeys_append]
    have h1 := keys_pureEntriesList_perm H (.mk cid cpath cattrs cchildren) cchildren
    show (recordKeys (pureEntriesList H (.mk cid cpath cattrs cchildren) cchildren)
      ++ [cpath]).Perm (cpath :: cpathsList cchildren)
    exact (h1.append_right [cpath]).trans (List.perm_append_singleton _ _)

theorem keys_pureEntriesList_perm (H : String → String) (parent : Construct) :
    ∀ (cs : List Construct), (recordKeys (pureEntriesList H parent cs)).Perm (cpathsList cs)
  | [] => by
    unfold pureEntriesList cpathsList
    rfl
  | c :: rest => by
    unfold pureEntriesList cpathsList
    rw [recordKeys_append]
    exact (keys_pureEntries_perm H (some parent) c).append
      (keys_pureEntriesList_perm H parent rest)

end

theorem recordGet_pureEntries_self (H : String → String) (sc : Option Construct)
    (c : Construct) (hnd : (cpaths c).Nodup) :
    recordGet (pureEntries H sc c) c.path = some (buildPure H sc c) := by
  rcases c with ⟨cid, cpath, cattrs, cchildren⟩
  unfold pureEntries
  rw [recordGet_append]
  have hpaths : ¬ (Construct.path (.mk cid cpath cattrs cchildren)) ∈
      recordKeys (pureEntriesList H (.mk cid cpath cattrs cchildren) cchildren) := by
    intro hc
    have hmem := (keys_pureEntriesList_perm H _ cchildren).mem_iff.mp hc
    unfold cpaths at hnd
    exact (List.nodup_cons.mp hnd).1 (by simpa [Construct.path] using hmem)
  rw [recordGet_none_of_not_mem_keys hpaths]
  show recordGet [(cpath, buildPure H sc (.mk cid cpath cattrs cchildren))]
    (Construct.path (.mk cid cpath cattrs cchildren)) = _
  rw [(rfl : Construct.path (.mk cid cpath cattrs cchildren) = cpath), recordGet_cons,
    if_pos (by simp [Construct.path])]

theorem recordGet_pureEntriesList (H : String → String) (parent : Construct) :
    ∀ (cs : List Construct), (cpathsList cs).Nodup →
      ∀ c ∈ cs, recordGet (pureEntriesList H parent cs) c.path =
        some (buildPure H (some parent) c)
  | [], _, c, hc => absurd hc (List.not_mem_nil _)
  | c0 :: rest, hnd, c, hc => by
    unfold pureEntriesList
    rw [recordGet_append]
    unfold cpathsList at hnd
    rw [List.nodup_append] at hnd
    rcases hnd with ⟨hnd0, hndr, hdisj⟩
    rcases List.mem_cons.mp hc with h0 | hr
    · subst h0
      rw [recordGet_pureEntries_self H (some parent) c hnd0]
    · have hcr : c.path ∈ cpathsList rest :=
        cpaths_subset_cpathsList rest c hr c.path (path_mem_cpaths c)
      have hnotin : ¬ c.path ∈ recordKeys (pureEntries H (some parent) c0) := by
        intro hk
        exact hdisj ((keys_pureEntries_perm H (some parent) c0).mem_iff.mp hk) hcr
      rw [recordGet_none_of_not_mem_keys hnotin]
      exact recordGet_pureEntriesList H parent rest hndr c hr

theorem childLookupHashes_ok (H : String → String) (parent : Construct)
    (lookup : Record Node) :
    ∀ (cs : List Construct),
      (∀ c ∈ cs, recordGet lookup c.path = some (buildPure H (some parent) c)) →
      childLookupHashes lookup cs =
        .ok (cs.map (fun c => Node.hash (buildPure H (some parent) c)))
  | [], _ => rfl
  | c :: rest, hget => by
    unfold childLookupHashes
    rw [hget c (List.mem_cons_self c rest)]
    rw [childLookupHashes_ok H parent lookup rest
      (fun c' hc' => hget c' (List.mem_cons_of_mem c hc'))]
    rfl

theorem childrenMap_of_nodup_ids (ns : List Node) (h : (ns.map Node.id).Nodup) :
    ns.foldl (fun m n => recordSet m n.id n) ([] : Record Node) =
      ns.map (fun n => (n.id, n)) := by
  have h1 : ns.foldl (fun m n => recordSet m n.id n) ([] : Record Node) =
      (ns.map (fun n => (n.id, n))).foldl (fun m e => recordSet m e.1 e.2) [] := by
    rw [List.foldl_map]
  rw [h1]
  refine foldl_recordSet_fresh (ns.map (fun n => (n.id, n))) [] ?_
  have : recordKeys (ns.map (fun n => (n.id, n))) = ns.map Node.id := by
    unfold recordKeys
    rw [List.map_map]
    rfl
  simpa [recordKeys, this] using h

theorem band_left {a b : Bool} (h : (a && b) = true) : a = true := by
  cases a with
  | true => rfl
  | false => simp at h

theorem band_right {a b : Bool} (h : (a && b) = true) : b = true := by
  cases b with
  | true => rfl
  | false => simp at h

theorem childrenMapFold (f : Construct → Node) (cs : List Construct)
    (h : ((cs.map f).map Node.id).Nodup) :
    List.foldl
      (fun (m : Record Node) (k : Option Node) =>
        match k with
        | some child => recordSet m child.id child
        | none => m)
      [] (cs.map (fun c => some (f c))) =
      (cs.map f).map (fun n => (n.id, n)) := by
  rw [List.foldl_map]
  have hstep : (fun (m : Record Node) (c : Construct) =>
      (match some (f c) with
        | some child => recordSet m child.id child
        | none => m)) =
      fun (m : Record Node) (c : Construct) => recordSet m (f c).id (f c) := rfl
  rw [hstep]
  have h2 : List.foldl (fun (m : Record Node) (c : Construct) => recordSet m (f c).id (f c))
      [] cs = List.foldl (fun (m : Record Node) (n : Node) => recordSet m n.id n)
      [] (cs.map f) := by
    rw [List.foldl_map]
  rw [h2]
  exact childrenMap_of_nodup_ids (cs.map f) h

mutual

/-- Adequacy of `buildPure`: on a construct subtree free of introspection
throws, with pairwise distinct paths and distinct derived sibling ids, and a
lookup table containing none of the subtree's paths yet, `visit` succeeds,
returns exactly `buildPure`, appends the subtree's lookup entries in
postorder and records no warning. -/
theorem visit_pure : ∀ (H : String → String) (sc : Option Construct) (c : Construct)
    (st : VState), noThrow c = true → (cpaths c).Nodup → goodIds c = true →
    (∀ k ∈ recordKeys st.lookup, ¬ k ∈ cpaths c) →
    visit H sc c st = (.ok (buildPure H sc c), ⟨st.lookup ++ pureEntries H sc c, st.warnings⟩)
  | H, sc, .mk cid cpath cattrs cchildren, st, hnt, hnd, hgi, hdisj => by
    have hntl : noThrowList cchildren = true := by
      unfold noThrow at hnt
      exact band_right hnt
    have hndl : (cpathsList cchildren).Nodup := by
      unfold cpaths at hnd
      exact (List.nodup_cons.mp hnd).2
    have hgil : goodIdsList cchildren = true := by
      unfold goodIds at hgi
      exact band_right hgi
    have hdisjl : ∀ k ∈ recordKeys st.lookup, ¬ k ∈ cpathsList cchildren := by
      intro k hk hc
      exact hdisj k hk (by unfold cpaths; exact List.mem_cons_of_mem _ hc)
    have hkids := visitList_pure H (.mk cid cpath cattrs cchildren) cchildren st
      hntl hndl hgil hdisjl
    have hok : ∃ a, cattrs = .ok a := by
      unfold noThrow at hnt
      have h1 := band_left hnt
      cases cattrs with
      | ok a => exact ⟨a, rfl⟩
      | error e => simp at h1
    rcases hok with ⟨attrs, rfl⟩
    have hget : ∀ c' ∈ cchildren,
        recordGet (st.lookup ++ pureEntriesList H (.mk cid cpath (.ok attrs) cchildren)
          cchildren) c'.path =
          some (buildPure H (some (.mk cid cpath (.ok attrs) cchildren)) c') := by
      intro c' hc'
      rw [recordGet_append]
      have hnotst : ¬ c'.path ∈ recordKeys st.lookup := by
        intro hk
        exact hdisjl c'.path hk
          (cpaths_subset_cpathsList cchildren c' hc' c'.path (path_mem_cpaths c'))
      rw [recordGet_none_of_not_mem_keys hnotst]
      exact recordGet_pureEntriesList H _ cchildren hndl c' hc'
    have hhash := childLookupHashes_ok H (.mk cid cpath (.ok attrs) cchildren)
      (st.lookup ++ pureEntriesList H (.mk cid cpath (.ok attrs) cchildren) cchildren)
      cchildren hget
    have hids : ((cchildren.map
        (buildPure H (some (.mk cid cpath (.ok attrs) cchildren)))).map Node.id).Nodup := by
      rw [List.map_map]
      have heq : (Node.id ∘ buildPure H (some (.mk cid cpath (.ok attrs) cchildren))) =
          nodeIdOf := by
        funext c'
        exact buildPure_id H _ c'
      rw [heq]
      unfold goodIds at hgi
      exact (distinct_iff _).mp (band_left hgi)
    have hfold := childrenMapFold
      (buildPure H (some (.mk cid cpath (.ok attrs) cchildren))) cchildren hids
    have hfresh : ¬ cpath ∈ recordKeys (st.lookup ++
        pureEntriesList H (.mk cid cpath (.ok attrs) cchildren) cchildren) := by
      rw [recordKeys_append]
      intro hk
      rcases List.mem_append.mp hk with hk | hk
      · exact hdisj cpath hk (by unfold cpaths; exact List.mem_cons_self _ _)
      · have := (keys_pureEntriesList_perm H _ cchildren).mem_iff.mp hk
        unfold cpaths at hnd
        exact (List.nodup_cons.mp hnd).1 this
    have hbp : buildPure H sc (.mk cid cpath (.ok attrs) cchildren) =
        .mk (if cid == "" then "App" else cid) cpath (parentRef sc)
          (List.map (fun n => (n.id, n)) (List.map
            (buildPure H (some (.mk cid cpath (.ok attrs) cchildren))) cchildren))
          attrs
          (nodeHash H attrs (sortStrings (List.map Node.hash (List.map
            (buildPure H (some (.mk cid cpath (.ok attrs) cchildren))) cchildren)))) := by
      conv_lhs => rw [buildPure]
      simp only [buildPureList_eq_map]
    have hmaps : List.map
        (fun c => (buildPure H (some (.mk cid cpath (.ok attrs) cchildren)) c).hash)
        cchildren = List.map Node.hash (List.map
          (buildPure H (some (.mk cid cpath (.ok attrs) cchildren))) cchildren) := by
      rw [List.map_map]
      rfl
    have hpe : pureEntries H sc (.mk cid cpath (.ok attrs) cchildren) =
        pureEntriesList H (.mk cid cpath (.ok attrs) cchildren) cchildren ++
          [(cpath, buildPure H sc (.mk cid cpath (.ok attrs) cchildren))] := by
      conv_lhs => rw [pureEntries]
    simp only [visit, hkids, hhash, hfold]
    rw [recordSet_fresh _ _ _ hfresh]
    rw [hmaps, hpe, hbp]
    rw [List.append_assoc]
termination_by H sc c st => sizeOf c

/-- List version of `visit_pure`: the children `.map` on a clean sibling
list returns every built child, appends their entries in order and records
no warning. -/
theorem visitList_pure : ∀ (H : String → String) (parent : Construct)
    (cs : List Construct) (st : VState),
    noThrowList cs = true → (cpathsList cs).Nodup → goodIdsList cs = true →
    (∀ k ∈ recordKeys st.lookup, ¬ k ∈ cpathsList cs) →
    visitList H parent cs st = (cs.map (fun c => some (buildPure H (some parent) c)),
      ⟨st.lookup ++ pureEntriesList H parent cs, st.warnings⟩)
  | H, parent, [], st, _, _, _, _ => by
    unfold visitList pureEntriesList
    simp
  | H, parent, c :: rest, st, hnt, hnd, hgi, hdisj => by
    have hntc : noThrow c = true := by
      unfold noThrowList at hnt
      exact band_left hnt
    have hntr : noThrowList rest = true := by
      unfold noThrowList at hnt
      exact band_right hnt
    unfold cpathsList at hnd
    rw [List.nodup_append] at hnd
    rcases hnd with ⟨hndc, hndr, hdisjcr⟩
    have hgic : goodIds c = true := by
      unfold goodIdsList at hgi
      exact band_left hgi
    have hgir : goodIdsList rest = true := by
      unfold goodIdsList at hgi
      exact band_right hgi
    have hdisjc : ∀ k ∈ recordKeys st.lookup, ¬ k ∈ cpaths c := by
      intro k hk hc
      exact hdisj k hk (by unfold cpathsList; exact List.mem_append_left _ hc)
    have hvc := visit_pure H (some parent) c st hntc hndc hgic hdisjc
    have hdisjr : ∀ k ∈ recordKeys (st.lookup ++ pureEntries H (some parent) c),
        ¬ k ∈ cpathsList rest := by
      intro k hk hc
      rw [recordKeys_append] at hk
      rcases List.mem_append.mp hk with hk | hk
      · exact hdisj k hk (by unfold cpathsList; exact List.mem_append_right _ hc)
      · exact hdisjcr ((keys_pureEntries_perm H (some parent) c).mem_iff.mp hk) hc
    have hvr := visitList_pure H parent rest ⟨st.lookup ++ pureEntries H (some parent) c,
      st.warnings⟩ hntr hndr hgir hdisjr
    have hpel : pureEntriesList H parent (c :: rest) =
        pureEntries H (some parent) c ++ pureEntriesList H parent rest := by
      simp [pureEntriesList]
    simp only [visitList, hvc, hvr, hpel]
    rw [List.append_assoc]
    rfl
termination_by H parent cs st => sizeOf cs

end

/-- Specialization of `visit_pure` to the top-level `_synthesizeTree` call. -/
theorem buildTree_pure (H : String → String) (root : Construct)
    (hnt : noThrow root = true) (hnd : distinct (cpaths root) = true)
    (hgi : goodIds root = true) :
    buildTree H root = (.ok (buildPure H none root), ⟨pureEntries H none root, []⟩) := by
  unfold buildTree
  have hv := visit_pure H none root ⟨[], []⟩ hnt ((distinct_iff _).mp hnd) hgi
    (by simp [recordKeys])
  simpa using hv

theorem buildPure_hash (H : String → String) (sc : Option Construct) (c : Construct) :
    Node.hash (buildPure H sc c) =
      nodeHash H (Node.attributes (buildPure H sc c))
        (sortStrings (List.map Node.hash (recordValues (Node.children (buildPure H sc c))))) := by
  rcases c with ⟨cid, cpath, cattrs, cchildren⟩
  have hb : buildPure H sc (.mk cid cpath cattrs cchildren) =
      .mk (if cid == "" then "App" else cid) cpath (parentRef sc)
        ((buildPureList H (.mk cid cpath cattrs cchildren) cchildren).map (fun n => (n.id, n)))
        (match cattrs with | .ok a => a | .error _ => none)
        (nodeHash H (match cattrs with | .ok a => a | .error _ => none)
          (sortStrings ((buildPureList H (.mk cid cpath cattrs cchildren) cchildren).map
            Node.hash))) := by
    rw [buildPure.eq_def]
  rw [hb]
  have hvals : recordValues
      ((buildPureList H (.mk cid cpath cattrs cchildren) cchildren).map (fun n => (n.id, n))) =
      buildPureList H (.mk cid cpath cattrs cchildren) cchildren := by
    unfold recordValues
    rw [List.map_map]
    exact List.map_id _
  simp only [Node.hash, Node.attributes, Node.children]
  rw [hvals]

/-- Hash formula of the Builder's output on clean inputs: the node hash is
the digest of the canonicalized attributes when present, else the digest of
the comma-joined sorted children hashes. -/
theorem buildTree_hash_spec (H : String → String) (root : Construct) (n : Node) (st : VState)
    (hnt : noThrow root = true) (hnd : distinct (cpaths root) = true)
    (hgi : goodIds root = true) (hb : buildTree H root = (.ok n, st)) :
    n.hash = nodeHash H n.attributes
      (sortStrings (List.map Node.hash (recordValues n.children))) := by
  rw [buildTree_pure H root hnt hnd hgi] at hb
  have hn : n = buildPure H none root := by
    have h1 := congrArg Prod.fst hb
    simpa using h1.symm
  subst hn
  exact buildPure_hash H none root

/-- C3 demo input: a root without attributes and two attribute-less leaf
children. -/
def c3root : Construct := .mk "" "" (.ok none)
  [.mk "A" "A" (.ok none) [], .mk "B" "B" (.ok none) []]

/-- Leaf `A` as built (hash of the empty join). -/
def c3leafA : Node := .mk "A" "A" none [] none ""

/-- Leaf `B` as built. -/
def c3leafB : Node := .mk "B" "B" none [] none ""

/-- The built root of the C3 demo: its hash digests the string `,` - the
JS `join()` of the two empty child hashes - not their plain concatenation. -/
def c3node : Node := .mk "App" "" none [("A", c3leafA), ("B", c3leafB)] none ","

/-- C3 counterexample, with the digest instantiated to the identity so the
digested string is visible: the attribute-less root's hash digests the
comma-join `,` of the two (empty) sorted children hashes, while the claim's
separator-less concatenation is the empty string - so the hash is not the
digest of the concatenation with no separator. -/
theorem c3_counterexample :
    (buildTree (fun s => s) c3root).1 = .ok c3node ∧
    c3node.attributes = none ∧
    c3node.hash = "," ∧
    String.join (sortStrings (List.map Node.hash (recordValues c3node.children))) = "" ∧
    ¬ c3node.hash =
      (fun s => s) (String.join (sortStrings (List.map Node.hash (recordValues c3node.children)))) := by
  refine ⟨?_, rfl, rfl, ?_, ?_⟩
  · simp [buildTree, visit, visitList, c3root, c3node, c3leafA, c3leafB, childLookupHashes,
      recordGet, recordSet, parentRef, nodeHash, sortStrings, List.insertionSort,
      List.orderedInsert, warnMsg, Construct.path, Construct.id, Node.id, Node.hash,
      Except.map, (by decide : strLeP "" ""),
      (show String.intercalate "," [] = "" from rfl),
      (show String.intercalate "," ["", ""] = "," from rfl)]
  · simp [c3node, c3leafA, c3leafB, recordValues, Node.children, Node.hash, sortStrings,
      List.insertionSort, List.orderedInsert, (by decide : strLeP "" "")]
    rfl
  · intro hc
    rw [(by simp [c3node, c3leafA, c3leafB, recordValues, Node.children, Node.hash,
      sortStrings, List.insertionSort, List.orderedInsert, (by decide : strLeP "" "")] <;> rfl :
      String.join (sortStrings (List.map Node.hash (recordValues c3node.children))) = "")] at hc
    exact absurd hc (by decide)

/-- C3 as amended: on an input tree free of introspection throws, with
pairwise distinct paths and distinct derived sibling ids, every built node
without attributes has as hash the digest of the sorted children hashes
joined with a comma separator (the JS `Array.join()` default), sorted
lexicographically. -/
theorem c3_amended (H : String → String) (root : Construct) (n : Node) (st : VState)
    (hnt : noThrow root = true) (hnd : distinct (cpaths root) = true)
    (hgi : goodIds root = true) (hb : buildTree H root = (.ok n, st))
    (hattrs : n.attributes = none) :
    n.hash = H (String.intercalate ","
      (sortStrings (List.map Node.hash (recordValues n.children)))) := by
  have h := buildTree_hash_spec H root n st hnt hnd hgi hb
  rw [hattrs] at h
  rw [h]
  rfl

/-- Witness for `c3_amended` at the concrete C3 demo input with the identity
digest. -/
theorem c3_amended_witness :
    noThrow c3root = true ∧ distinct (cpaths c3root) = true ∧ goodIds c3root = true ∧
    buildTree (fun s => s) c3root =
      (.ok c3node, ⟨[("A", c3leafA), ("B", c3leafB), ("", c3node)], []⟩) ∧
    c3node.attributes = none ∧
    c3node.hash = (fun s => s) (String.intercalate ","
      (sortStrings (List.map Node.hash (recordValues c3node.children)))) := by
  have hb : buildTree (fun s => s) c3root =
      (.ok c3node, ⟨[("A", c3leafA), ("B", c3leafB), ("", c3node)], []⟩) := by
    simp [buildTree, visit, visitList, c3root, c3node, c3leafA, c3leafB, childLookupHashes,
      recordGet, recordSet, parentRef, nodeHash, sortStrings, List.insertionSort,
      List.orderedInsert, warnMsg, Construct.path, Construct.id, Node.id, Node.hash,
      Except.map, (by decide : strLeP "" ""),
      (show String.intercalate "," [] = "" from rfl),
      (show String.intercalate "," ["", ""] = "," from rfl)]
  refine ⟨?_, ?_, ?_, hb, rfl, ?_⟩
  · simp [noThrow, noThrowList, c3root]
  · simp [cpaths, cpathsList, c3root, distinct]
  · simp [goodIds, goodIdsList, c3root, distinct, nodeIdOf, Construct.id]
  · exact c3_amended (fun s => s) c3root c3node
      ⟨[("A", c3leafA), ("B", c3leafB), ("", c3node)], []⟩
      (by simp [noThrow, noThrowList, c3root])
      (by simp [cpaths, cpathsList, c3root, distinct])
      (by simp [goodIds, goodIdsList, c3root, distinct, nodeIdOf, Construct.id])
      hb rfl

/-- C7: on clean inputs, a built node's hash with attributes present is a
function of the attributes alone (two builds with the same attributes have
the same hash regardless of their children), and a built node's hash with
attributes absent is a function of the sorted collection of its children's
hashes alone. -/
theorem c7_hash_merkle (H : String → String) (c1 c2 : Construct) (n1 n2 : Node)
    (st1 st2 : VState)
    (h1nt : noThrow c1 = true) (h1nd : distinct (cpaths c1) = true) (h1gi : goodIds c1 = true)
    (h2nt : noThrow c2 = true) (h2nd : distinct (cpaths c2) = true) (h2gi : goodIds c2 = true)
    (hb1 : buildTree H c1 = (.ok n1, st1)) (hb2 : buildTree H c2 = (.ok n2, st2)) :
    (∀ a, n1.attributes = some a → n2.attributes = some a → n1.hash = n2.hash) ∧
    (n1.attributes = none → n2.attributes = none →
      sortStrings (List.map Node.hash (recordValues n1.children)) =
        sortStrings (List.map Node.hash (recordValues n2.children)) →
      n1.hash = n2.hash) := by
  have hh1 := buildTree_hash_spec H c1 n1 st1 h1nt h1nd h1gi hb1
  have hh2 := buildTree_hash_spec H c2 n2 st2 h2nt h2nd h2gi hb2
  constructor
  · intro a ha1 ha2
    rw [hh1, hh2, ha1, ha2]
    rfl
  · intro ha1 ha2 hs
    rw [hh1, hh2, ha1, ha2, hs]

/-- C7 witness input: attribute-bearing construct without children. -/
def c7a : Construct := .mk "A" "A" (.ok (some [("k", .num 7)])) []

/-- C7 witness input: child of `c7b`. -/
def c7bL : Construct := .mk "L" "B/L" (.ok none) []

/-- C7 witness input: construct with the same attributes as `c7a` but one
child. -/
def c7b : Construct := .mk "B" "B" (.ok (some [("k", .num 7)])) [c7bL]

/-- Built node for `c7a`. -/
def n7a : Node := .mk "A" "A" none [] (some [("k", .num 7)]) "\x7b\"k\":7\x7d"

/-- Built child node for `c7b`. -/
def n7L : Node := .mk "L" "B/L" (some (.mk "B" "B" none [] none "")) [] none ""

/-- Built node for `c7b`: same attributes as `n7a`, hence the same hash,
although the children differ. -/
def n7b : Node := .mk "B" "B" none [("L", n7L)] (some [("k", .num 7)]) "\x7b\"k\":7\x7d"

/-- Witness for `c7_hash_merkle`: two builds with identical attributes but
different children produce nodes with equal hashes. -/
theorem c7_hash_merkle_witness :
    noThrow c7a = true ∧ distinct (cpaths c7a) = true ∧ goodIds c7a = true ∧
    noThrow c7b = true ∧ distinct (cpaths c7b) = true ∧ goodIds c7b = true ∧
    buildTree (fun s => s) c7a = (.ok n7a, ⟨[("A", n7a)], []⟩) ∧
    buildTree (fun s => s) c7b = (.ok n7b, ⟨[("B/L", n7L), ("B", n7b)], []⟩) ∧
    n7a.attributes = some [("k", .num 7)] ∧ n7b.attributes = some [("k", .num 7)] ∧
    n7a.hash = n7b.hash := by
  have hba : buildTree (fun s => s) c7a = (.ok n7a, ⟨[("A", n7a)], []⟩) := by
    simp [buildTree, visit, visitList, c7a, n7a, childLookupHashes, recordGet, recordSet,
      parentRef, nodeHash, sortStrings, List.insertionSort, List.orderedInsert, warnMsg,
      Construct.path, Construct.id, Node.id, Node.hash, Except.map, canonicalize, sortPairs,
      members, serialize,
      (show String.intercalate "," [] = "" from rfl)] <;> rfl
  have hbb : buildTree (fun s => s) c7b = (.ok n7b, ⟨[("B/L", n7L), ("B", n7b)], []⟩) := by
    simp [buildTree, visit, visitList, c7b, c7bL, n7b, n7L, childLookupHashes, recordGet,
      recordSet, parentRef, nodeHash, sortStrings, List.insertionSort, List.orderedInsert,
      warnMsg, Construct.path, Construct.id, Node.id, Node.hash, Except.map, canonicalize,
      sortPairs, members, serialize,
      (show String.intercalate "," [] = "" from rfl),
      (show String.intercalate "," [""] = "" from rfl)] <;> rfl
  refine ⟨rfl, ?_, ?_, rfl, ?_, ?_, hba, hbb, rfl, rfl, ?_⟩
  · simp [cpaths, cpathsList, c7a, distinct]
  · simp [goodIds, goodIdsList, c7a, distinct, nodeIdOf, Construct.id]
  · simp [cpaths, cpathsList, c7b, c7bL, distinct]
  · simp [goodIds, goodIdsList, c7b, c7bL, distinct, nodeIdOf, Construct.id]
  · exact (c7_hash_merkle (fun s => s) c7a c7b n7a n7b
      ⟨[("A", n7a)], []⟩ ⟨[("B/L", n7L), ("B", n7b)], []⟩
      rfl (by simp [cpaths, cpathsList, c7a, distinct])
      (by simp [goodIds, goodIdsList, c7a, distinct, nodeIdOf, Construct.id])
      rfl (by simp [cpaths, cpathsList, c7b, c7bL, distinct])
      (by simp [goodIds, goodIdsList, c7b, c7bL, distinct, nodeIdOf, Construct.id])
      hba hbb).1 [("k", .num 7)] rfl rfl

mutual

/-- Canonical form of a JSON value: recursively sort every object's pair
list by key. Two attribute mappings contain the same key/value pairs up to
insertion order (at every nesting depth) exactly when their canonical forms
coincide (given unique keys). -/
def canonForm : JVal → JVal
  | .str s => .str s
  | .num n => .num n
  | .bool b => .bool b
  | .null => .null
  | .date d => .date d
  | .arr l => .arr (canonFormElems l)
  | .obj l => .obj (sortPairs (canonFormPairs l))

def canonFormElems : List JVal → List JVal
  | [] => []
  | v :: vs => canonForm v :: canonFormElems vs

def canonFormPairs : List (String × JVal) → List (String × JVal)
  | [] => []
  | p :: ps => (p.1, canonForm p.2) :: canonFormPairs ps

end

mutual

/-- Every object in the value has pairwise distinct keys. -/
def nodupKeysRec : JVal → Bool
  | .str _ => true
  | .num _ => true
  | .bool _ => true
  | .null => true
  | .date _ => true
  | .arr l => nodupKeysElems l
  | .obj l => distinct (l.map (fun p => p.1)) && nodupKeysPairs l

def nodupKeysElems : List JVal → Bool
  | [] => true
  | v :: vs => nodupKeysRec v && nodupKeysElems vs

def nodupKeysPairs : List (String × JVal) → Bool
  | [] => true
  | p :: ps => nodupKeysRec p.2 && nodupKeysPairs ps

end

theorem nodupKeysPairs_mem : ∀ (l : List (String × JVal)), nodupKeysPairs l = true →
    ∀ p ∈ l, nodupKeysRec p.2 = true
  | [], _, p, hp => absurd hp (List.not_mem_nil p)
  | q :: ps, h, p, hp => by
    unfold nodupKeysPairs at h
    rcases List.mem_cons.mp hp with h0 | hr
    · exact h0 ▸ band_left h
    · exact nodupKeysPairs_mem ps (band_right h) p hr

theorem nodupKeysElems_mem : ∀ (l : List JVal), nodupKeysElems l = true →
    ∀ v ∈ l, nodupKeysRec v = true
  | [], _, v, hv => absurd hv (List.not_mem_nil v)
  | w :: vs, h, v, hv => by
    unfold nodupKeysElems at h
    rcases List.mem_cons.mp hv with h0 | hr
    · exact h0 ▸ band_left h
    · exact nodupKeysElems_mem vs (band_right h) v hr

theorem canonFormPairs_eq_map : ∀ (l : List (String × JVal)),
    canonFormPairs l = l.map (fun p => (p.1, canonForm p.2))
  | [] => rfl
  | p :: ps => by
    unfold canonFormPairs
    rw [canonFormPairs_eq_map ps]
    rfl

/-- The strict-by-key ordering on pairs: vacuously antisymmetric. -/
def pairKeyLt (a b : String × JVal) : Prop := strLe a.1 b.1 = true ∧ ¬ a.1 = b.1

instance : IsAntisymm (String × JVal) pairKeyLt :=
  ⟨fun a b h1 h2 => absurd (strLe_antisymm h1.1 h2.1) h1.2⟩

theorem sorted_strict_of_sorted_nodup {l : List (String × JVal)}
    (hs : List.Sorted pairLe l) (hn : (l.map (fun p => p.1)).Nodup) :
    List.Sorted pairKeyLt l := by
  have hne : List.Pairwise (fun a b : String × JVal => ¬ a.1 = b.1) l :=
    List.pairwise_map.mp hn
  exact (hs.and hne).imp (fun h => ⟨h.1, h.2⟩)

theorem keys_map_canon (l : List (String × JVal)) :
    (l.map (fun p => (p.1, canonForm p.2))).map (fun p => p.1) = l.map (fun p => p.1) := by
  rw [List.map_map]
  rfl

theorem sortPairs_canonFormPairs_comm (l : List (String × JVal))
    (hn : (l.map (fun p => p.1)).Nodup) :
    sortPairs (canonFormPairs l) = canonFormPairs (sortPairs l) := by
  rw [canonFormPairs_eq_map, canonFormPairs_eq_map]
  apply List.eq_of_perm_of_sorted (r := pairKeyLt)
  · exact (List.perm_insertionSort pairLe _).trans
      ((List.perm_insertionSort pairLe l).symm.map _)
  · apply sorted_strict_of_sorted_nodup (List.sorted_insertionSort pairLe _)
    have hperm : ((List.insertionSort pairLe (l.map (fun p => (p.1, canonForm p.2)))).map
        (fun p => p.1)).Perm ((l.map (fun p => (p.1, canonForm p.2))).map (fun p => p.1)) :=
      (List.perm_insertionSort pairLe _).map _
    rw [hperm.nodup_iff, keys_map_canon]
    exact hn
  · unfold sortPairs
    apply sorted_strict_of_sorted_nodup
    · exact List.Pairwise.map _ (fun a b hab => hab) (List.sorted_insertionSort pairLe l)
    · rw [keys_map_canon]
      have hperm : ((List.insertionSort pairLe l).map (fun p => p.1)).Perm
          (l.map (fun p => p.1)) := (List.perm_insertionSort pairLe l).map _
      rw [hperm.nodup_iff]
      exact hn

theorem sortPairs_idem (x : List (String × JVal)) : sortPairs (sortPairs x) = sortPairs x :=
  List.Sorted.insertionSort_eq (List.sorted_insertionSort pairLe x)

mutual

theorem serialize_canon : ∀ (v : JVal), nodupKeysRec v = true →
    serialize (canonForm v) = serialize v
  | .str s, _ => by simp [canonForm]
  | .num n, _ => by simp [canonForm]
  | .bool b, _ => by simp [canonForm]
  | .null, _ => by simp [canonForm]
  | .date d, _ => by simp [canonForm]
  | .arr l, h => by
    unfold nodupKeysRec at h
    simp only [canonForm, serialize]
    rw [serializeElems_canon l h]
  | .obj l, h => by
    unfold nodupKeysRec at h
    have hkeys : (l.map (fun p => p.1)).Nodup := (distinct_iff _).mp (band_left h)
    have hvals : ∀ p ∈ sortPairs l, nodupKeysRec p.2 = true := by
      intro p hp
      have hpl : p ∈ l := by
        unfold sortPairs at hp
        exact (List.mem_insertionSort pairLe).mp hp
      exact nodupKeysPairs_mem l (band_right h) p hpl
    simp only [canonForm, serialize, canonicalize]
    rw [sortPairs_idem, sortPairs_canonFormPairs_comm l hkeys,
      members_canon (sortPairs l) hvals]
termination_by v => (sizeOf v, 0)
decreasing_by all_goals
  (simp_wf; first
    | omega
    | (rw [sizeOf_sortPairs]; omega))

theorem serializeElems_canon : ∀ (l : List JVal), nodupKeysElems l = true →
    serializeElems (canonFormElems l) = serializeElems l
  | [], _ => by simp [canonFormElems]
  | [v], h => by
    simp only [canonFormElems, serializeElems]
    unfold nodupKeysElems at h
    rw [serialize_canon v (band_left h)]
  | v :: w :: vs, h => by
    unfold nodupKeysElems at h
    have hfold : canonForm w :: canonFormElems vs = canonFormElems (w :: vs) := by
      rw [canonFormElems]
    simp only [canonFormElems, serializeElems]
    rw [serialize_canon v (band_left h), hfold,
      serializeElems_canon (w :: vs) (band_right h)]
termination_by l => (sizeOf l, 0)
decreasing_by all_goals (simp_wf; omega)

theorem members_canon : ∀ (l : List (String × JVal)),
    (∀ p ∈ l, nodupKeysRec p.2 = true) →
    members (canonFormPairs l) = members l
  | [], _ => by simp [canonFormPairs]
  | [(k, v)], h => by
    simp only [canonFormPairs, members]
    rw [serialize_canon v (h (k, v) (List.mem_cons_self (k, v) []))]
  | (k, v) :: (k2, v2) :: ps, h => by
    simp only [canonFormPairs, members]
    rw [serialize_canon v (h (k, v) (List.mem_cons_self (k, v) ((k2, v2) :: ps)))]
    have hrest := members_canon ((k2, v2) :: ps)
      (fun p' hp' => h p' (List.mem_cons_of_mem (k, v) hp'))
    simp only [canonFormPairs, members] at hrest
    rw [hrest]
termination_by l => (sizeOf l, 0)
decreasing_by all_goals (simp_wf; omega)

end

/-- C6: two attribute mappings containing the same key/value pairs up to
insertion order - including reorderings inside recursively nested mappings,
which is exactly what equality of the recursively-key-sorted `canonForm`
expresses - canonicalize to character-for-character identical output,
provided keys are unique within each mapping (as JS object keys are). -/
theorem c6_canonicalize_order_independent (la lb : List (String × JVal))
    (ha : nodupKeysRec (JVal.obj la) = true) (hb : nodupKeysRec (JVal.obj lb) = true)
    (he : canonForm (JVal.obj la) = canonForm (JVal.obj lb)) :
    canonicalize la = canonicalize lb := by
  have h : serialize (JVal.obj la) = serialize (JVal.obj lb) := by
    rw [← serialize_canon _ ha, ← serialize_canon _ hb, he]
  simp only [serialize] at h
  exact h

/-- C6 witness input: outer pairs in one order, nested mapping reordered. -/
def c6a : List (String × JVal) := [("b", .obj [("y", .num 2), ("x", .num 1)]), ("a", .num 0)]

/-- C6 witness input: same pairs as `c6a`, with the outer insertion order
swapped and the nested mapping in the opposite order. -/
def c6b : List (String × JVal) := [("a", .num 0), ("b", .obj [("x", .num 1), ("y", .num 2)])]

/-- Witness for `c6_canonicalize_order_independent` on two concrete nested
mappings differing only in insertion order at both levels. -/
theorem c6_canonicalize_order_independent_witness :
    nodupKeysRec (JVal.obj c6a) = true ∧ nodupKeysRec (JVal.obj c6b) = true ∧
    canonForm (JVal.obj c6a) = canonForm (JVal.obj c6b) ∧
    canonicalize c6a = canonicalize c6b :=
  ⟨rfl, rfl, rfl, c6_canonicalize_order_independent c6a c6b rfl rfl rfl⟩
